import Mathlib

/-!
Verification of the shakmaty attack/perft core.

Squares are `Fin 64` (`file = sq % 8`, `rank = sq / 8`), bitboards are
natural numbers read through `Nat.testBit` (the u64 operations `&`, `|`,
`^`, `<<` agree with the `Nat` operations on values below `2 ^ 64`).
The magic records, the shared `ATTACKS` table and the `BB_RAYS` /
`BB_BETWEEN` tables are build-time generated data that is not part of
the sources; those are modelled from the spec, as marked on each
definition.  Everything else is translated from `attacks.rs`,
`types.rs` and `perft.rs`.
-/

namespace Shakmaty

/-- File of a square index: `sq % 8`. -/
def fileOf (sq : Nat) : Nat := sq % 8

/-- Rank of a square index: `sq / 8`. -/
def rankOf (sq : Nat) : Nat := sq / 8

/-- A board direction given as file and rank increments. -/
structure Delta where
  df : Int
  dr : Int
deriving DecidableEq

/-- One step from `sq` in direction `d`, `none` when it leaves the board. -/
def shiftSq (sq : Fin 64) (d : Delta) : Option (Fin 64) :=
  if h : 0 ≤ (fileOf ↑sq : Int) + d.df ∧ (fileOf ↑sq : Int) + d.df < 8 ∧
      0 ≤ (rankOf ↑sq : Int) + d.dr ∧ (rankOf ↑sq : Int) + d.dr < 8 then
    some ⟨((((rankOf ↑sq : Int) + d.dr)) * 8 + ((fileOf ↑sq : Int) + d.df)).toNat, by omega⟩
  else
    none

/-- Reference ray cast: walk from `sq` in direction `d`, collecting squares
until and including the first square set in `occ`. -/
def walkRay (occ : Nat) (d : Delta) : Nat → Fin 64 → Nat
  | 0, _ => 0
  | fuel + 1, sq =>
    match shiftSq sq d with
    | none => 0
    | some sq2 =>
      (1 <<< (sq2 : Nat)) ||| (if occ.testBit ↑sq2 then 0 else walkRay occ d fuel sq2)

/-- Relevant-occupancy ray: the squares of the ray from `sq` in direction
`d`, excluding the final edge square. -/
def maskRay (d : Delta) : Nat → Fin 64 → Nat
  | 0, _ => 0
  | fuel + 1, sq =>
    match shiftSq sq d with
    | none => 0
    | some sq2 =>
      match shiftSq sq2 d with
      | none => 0
      | some _ => (1 <<< (sq2 : Nat)) ||| maskRay d fuel sq2

/-- Union of a list of bitboards. -/
def orList (l : List Nat) : Nat := l.foldr (· ||| ·) 0

/-- Rook directions: along the rank and the file. -/
def rookDeltas : List Delta := [⟨1, 0⟩, ⟨-1, 0⟩, ⟨0, 1⟩, ⟨0, -1⟩]

/-- Bishop directions: the four diagonals. -/
def bishopDeltas : List Delta := [⟨1, 1⟩, ⟨1, -1⟩, ⟨-1, 1⟩, ⟨-1, -1⟩]

/-- Reference brute-force sliding attack set: union of the rays from `sq`,
each truncated inclusively at the first blocker in `occ`. -/
def slidingAttacks (deltas : List Delta) (sq : Fin 64) (occ : Nat) : Nat :=
  orList (deltas.map (fun d => walkRay occ d 7 sq))

/-- Relevant-occupancy mask: union of the rays excluding edge squares. -/
def slidingMask (deltas : List Delta) (sq : Fin 64) : Nat :=
  orList (deltas.map (fun d => maskRay d 7 sq))

/-- Modelled from the spec: the magic record masks (`magics::ROOK_MAGICS`,
generated data, not in the sources) are the relevant-occupancy masks,
"computed by ray-casting in each of the piece's directions to the board
edge, excluding the edge square itself".  `rook_mask` in `attacks.rs`
returns that record field. -/
def rook_mask (sq : Fin 64) : Nat := slidingMask rookDeltas sq

/-- Modelled from the spec: bishop analogue of `rook_mask`. -/
def bishop_mask (sq : Fin 64) : Nat := slidingMask bishopDeltas sq

/-- Modelled from the spec: the shared `ATTACKS` table (generated data, not
in the sources) stores, at the index computed by `rook_attacks`, "the true
attack set computed by ray-casting in each direction and stopping inclusive
of the first hit" for the relevant occupancy `occupied & mask`; the lookup
in `attacks.rs` returns that entry. -/
def rook_attacks (sq : Fin 64) (occupied : Nat) : Nat :=
  slidingAttacks rookDeltas sq (occupied &&& rook_mask sq)

/-- Modelled from the spec: bishop analogue of `rook_attacks`. -/
def bishop_attacks (sq : Fin 64) (occupied : Nat) : Nat :=
  slidingAttacks bishopDeltas sq (occupied &&& bishop_mask sq)

/-- From `attacks.rs`: `queen_attacks` is the xor of rook and bishop
attacks. -/
def queen_attacks (sq : Fin 64) (occupied : Nat) : Nat :=
  rook_attacks sq occupied ^^^ bishop_attacks sq occupied

/-- Population count of the low 64 bits, as `Bitboard::count`. -/
def popcount64 (n : Nat) : Nat := ((List.range 64).filter (fun i => n.testBit i)).length

/-- Same rank test for two square indices. -/
def sameRank (a b : Nat) : Bool := rankOf a == rankOf b

/-- Same file test for two square indices. -/
def sameFile (a b : Nat) : Bool := fileOf a == fileOf b

/-- Same diagonal test: `rank - file` agrees (stated additively). -/
def sameDiag (a b : Nat) : Bool := rankOf a + fileOf b == rankOf b + fileOf a

/-- Same anti-diagonal test: `rank + file` agrees. -/
def sameAnti (a b : Nat) : Bool := rankOf a + fileOf a == rankOf b + fileOf b

/-- Two squares share a rank, file or diagonal. -/
def onSameLine (a b : Nat) : Bool := sameRank a b || sameFile a b || sameDiag a b || sameAnti a b

/-- Bitboard of the squares satisfying `p`: "the union of all squares
sharing that same rank/file/diagonal index". -/
def lineBB (p : Nat → Bool) : Nat :=
  (List.range 64).foldr (fun s acc => if p s then (1 <<< s) ||| acc else acc) 0

/-- Modelled from the spec: the `BB_RAYS` table (generated data, not in the
sources): "determine alignment by comparing rank, file, and the two diagonal
indices; if aligned on one of the four line types, the full ray is the union
of all squares sharing that same rank/file/diagonal index", empty when the
squares coincide or are unaligned. -/
def BB_RAYS (a b : Fin 64) : Nat :=
  if (a : Nat) = (b : Nat) then 0
  else if sameRank ↑a ↑b then lineBB (fun s => sameRank ↑a s)
  else if sameFile ↑a ↑b then lineBB (fun s => sameFile ↑a s)
  else if sameDiag ↑a ↑b then lineBB (fun s => sameDiag ↑a s)
  else if sameAnti ↑a ↑b then lineBB (fun s => sameAnti ↑a s)
  else 0

/-- From `attacks.rs`: `ray` reads the `BB_RAYS` table. -/
def ray (a b : Fin 64) : Nat := BB_RAYS a b

/-- Sign of an integer, used to build the unit step between two squares. -/
def sgnInt (x : Int) : Int := if 0 < x then 1 else if x < 0 then -1 else 0

/-- Unit direction step from `a` toward `b`. -/
def stepDelta (a b : Fin 64) : Delta :=
  ⟨sgnInt ((fileOf ↑b : Int) - (fileOf ↑a : Nat)), sgnInt ((rankOf ↑b : Int) - (rankOf ↑a : Nat))⟩

/-- Walk from `sq` in direction `d` collecting squares strictly before `b`. -/
def betweenGo (d : Delta) (b : Fin 64) : Nat → Fin 64 → Nat
  | 0, _ => 0
  | fuel + 1, sq =>
    match shiftSq sq d with
    | none => 0
    | some sq2 =>
      if sq2 = b then 0 else (1 <<< (sq2 : Nat)) ||| betweenGo d b fuel sq2

/-- Modelled from the spec: the `BB_BETWEEN` table (generated data, not in
the sources): the open segment strictly between two aligned distinct
squares, "via a precomputed direction step repeated until reaching the
other endpoint", empty when unaligned or equal. -/
def BB_BETWEEN (a b : Fin 64) : Nat :=
  if (a : Nat) ≠ (b : Nat) ∧ onSameLine ↑a ↑b then betweenGo (stepDelta a b) b 7 a else 0

/-- From `attacks.rs`: `between` reads the `BB_BETWEEN` table. -/
def between (a b : Fin 64) : Nat := BB_BETWEEN a b

/-- Membership in a bitboard, as `Bitboard::contains`. -/
def contains (bb : Nat) (s : Fin 64) : Bool := bb.testBit ↑s

/-- From `attacks.rs`: `aligned(a, b, c)` is `ray(a, b).contains(c)`. -/
def aligned (a b c : Fin 64) : Bool := contains (ray a b) c

/-- Spec reference for the ray contract: a square is on the ray of a
distinct aligned pair exactly when it shares that pair's common line. -/
def onLine (a b s : Nat) : Bool :=
  (sameRank a b && sameRank a s) || (sameFile a b && sameFile a s) ||
    (sameDiag a b && sameDiag a s) || (sameAnti a b && sameAnti a s)

/-- Spec reference for the ray contract: empty when the squares coincide or
are unaligned, otherwise the full line containing both. -/
def rayRef (a b : Fin 64) : Nat :=
  if (a : Nat) = (b : Nat) then 0
  else if onSameLine ↑a ↑b then lineBB (onLine ↑a ↑b) else 0

/-- King-adjacency: distinct squares one step apart. -/
def isAdjacent (a b : Fin 64) : Bool :=
  (a : Nat) != (b : Nat) &&
    ((fileOf ↑a : Int) - (fileOf ↑b : Nat)).natAbs ≤ 1 &&
    ((rankOf ↑a : Int) - (rankOf ↑b : Nat)).natAbs ≤ 1

/-- Prop counterpart of `onSameLine`, in plain arithmetic. -/
def onLineWithP (a b i : Nat) : Prop :=
  (rankOf a = rankOf b ∧ rankOf a = rankOf i) ∨
    (fileOf a = fileOf b ∧ fileOf a = fileOf i) ∨
    (rankOf a + fileOf b = rankOf b + fileOf a ∧ rankOf a + fileOf i = rankOf i + fileOf a) ∨
    (rankOf a + fileOf a = rankOf b + fileOf b ∧ rankOf a + fileOf a = rankOf i + fileOf i)

/-- Coordinate-wise strict betweenness used to characterise `between`:
`i` lies on the segment of the common line of `a` and `b`, excluding the
endpoints. -/
def strictlyBetweenP (a b i : Nat) : Prop :=
  onLineWithP a b i ∧ i ≠ a ∧ i ≠ b ∧
    (fileOf a ≤ fileOf i ∧ fileOf i ≤ fileOf b ∨ fileOf b ≤ fileOf i ∧ fileOf i ≤ fileOf a) ∧
    (rankOf a ≤ rankOf i ∧ rankOf i ≤ rankOf b ∨ rankOf b ≤ rankOf i ∧ rankOf i ≤ rankOf a)

/-- A magic record, as in the external `magics` module: relevant-occupancy
mask, multiplicative hash factor and base offset into the shared table. -/
structure Magic where
  mask : Nat
  factor : Nat
  offset : Nat

/-- The index computation of `rook_attacks` in `attacks.rs`:
`(factor.wrapping_mul(occupied & mask) >> (64 - 12)) + offset`. -/
def rookIndex (m : Magic) (occupied : Nat) : Nat :=
  (((m.factor * (occupied &&& m.mask)) % 2 ^ 64) >>> (64 - 12)) + m.offset

/-- The index computation of `bishop_attacks` in `attacks.rs`, shift
`64 - 9`. -/
def bishopIndex (m : Magic) (occupied : Nat) : Nat :=
  (((m.factor * (occupied &&& m.mask)) % 2 ^ 64) >>> (64 - 9)) + m.offset

/-- Modelled from the spec: at construction time the shared table receives
an entry for every subset of a record's mask, at
`offset + ((factor * subset) mod 2^64) >> (64 - bits)`; these are the
indices a record can reach. -/
def subsetIndices (bits : Nat) (m : Magic) : Finset Nat :=
  ((Finset.range (m.mask + 1)).filter (fun s => s &&& m.mask = s)).image
    (fun s => (((m.factor * s) % 2 ^ 64) >>> (64 - bits)) + m.offset)

/-- Modelled from the spec: the length of the shared `ATTACKS` table (the
table itself is generated data, not in the sources) — construction "assigns
the next square's offset past the highest index used", so the total length
is one past the highest index any rook or bishop record reaches. -/
def ATTACKS_len (rookMagics bishopMagics : Fin 64 → Magic) : Nat :=
  (Finset.univ.sup fun sq : Fin 64 =>
    (subsetIndices 12 (rookMagics sq)).sup id ⊔ (subsetIndices 9 (bishopMagics sq)).sup id) + 1

/-- From `types.rs`: piece roles. -/
inductive Role
  | Pawn
  | Knight
  | Bishop
  | Rook
  | Queen
  | King
deriving DecidableEq, Fintype

/-- From `types.rs`: `Role::char`. -/
def Role.char : Role → Char
  | .Pawn => 'p'
  | .Knight => 'n'
  | .Bishop => 'b'
  | .Rook => 'r'
  | .Queen => 'q'
  | .King => 'k'

/-- From `types.rs`: `Role::from_char`. -/
def Role.from_char (ch : Char) : Option Role :=
  match ch with
  | 'p' => some .Pawn
  | 'n' => some .Knight
  | 'b' => some .Bishop
  | 'r' => some .Rook
  | 'q' => some .Queen
  | 'k' => some .King
  | _ => none

/-- ASCII lowercasing of a character, as `char::to_ascii_lowercase`. -/
def toAsciiLower (c : Char) : Char :=
  if 'A' ≤ c ∧ c ≤ 'Z' then Char.ofNat (c.toNat + 32) else c

/-- ASCII uppercasing of a character, as `char::to_ascii_uppercase`. -/
def toAsciiUpper (c : Char) : Char :=
  if 'a' ≤ c ∧ c ≤ 'z' then Char.ofNat (c.toNat - 32) else c

/-- From `types.rs`: moves — normal moves with optional promotion, drops,
and the null move.  Squares are the external `Square` type, `Fin 64`. -/
inductive Move
  | Normal (source : Fin 64) (target : Fin 64) (promotion : Option Role)
  | Put (target : Fin 64) (role : Role)
  | Null
deriving DecidableEq

/-- Modelled from the spec: the external `Square` type's display (square
`sq` with `file = sq % 8`, `rank = sq / 8` renders as the file letter
`a`..`h` followed by the rank digit `1`..`8`, the UCI square notation). -/
def squareChars (sq : Fin 64) : List Char :=
  [Char.ofNat (97 + fileOf ↑sq), Char.ofNat (49 + rankOf ↑sq)]

/-- Modelled from the spec: the external `Square::from_str`, accepting
exactly a file letter `a`..`h` followed by a rank digit `1`..`8`. -/
def square_from_str : List Char → Option (Fin 64)
  | [f, r] =>
    if h : 97 ≤ f.toNat ∧ f.toNat < 105 ∧ 49 ≤ r.toNat ∧ r.toNat < 57 then
      some ⟨(r.toNat - 49) * 8 + (f.toNat - 97), by omega⟩
    else none
  | _ => none

/-- From `types.rs`: the `Display` implementation for `Move`, producing the
UCI-style token. -/
def moveChars : Move → List Char
  | .Normal s t none => squareChars s ++ squareChars t
  | .Normal s t (some p) => squareChars s ++ squareChars t ++ [p.char]
  | .Put t role => [toAsciiUpper role.char, '@'] ++ squareChars t
  | .Null => ['0', '0', '0', '0']

/-- From `types.rs`: `Move::from_uci`.  Length guard, then the normal-move
parse (with the promotion arm returning through `Role::from_char`), then
the drop parse, then the null-move token. -/
def from_uci (uci : List Char) : Option Move :=
  if uci.length < 4 ∨ 5 < uci.length then none
  else
    match square_from_str (uci.take 2), square_from_str ((uci.drop 2).take 2), uci.get? 4 with
    | some s, some t, some promotion =>
      (Role.from_char promotion).map fun role => Move.Normal s t (some role)
    | some s, some t, none => some (Move.Normal s t none)
    | _, _, _ =>
      match uci.get? 0, uci.get? 1, square_from_str ((uci.drop 2).take 2) with
      | some piece, some at1, some t =>
        if at1 = '@' then (Role.from_char (toAsciiLower piece)).map fun role => Move.Put t role
        else if uci = ['0', '0', '0', '0'] then some Move.Null else none
      | _, _, _ => if uci = ['0', '0', '0', '0'] then some Move.Null else none

/-- Well-formedness of a UCI token, following the spec's error taxonomy:
acceptable length, parseable squares, known promotion or role letter (or
the null token). -/
def wellFormedUci (uci : List Char) : Prop :=
  (uci.length = 4 ∨ uci.length = 5) ∧
    ((square_from_str (uci.take 2)).isSome = true ∧
        (square_from_str ((uci.drop 2).take 2)).isSome = true ∧
        (∀ p, uci.get? 4 = some p → (Role.from_char p).isSome = true) ∨
      uci.get? 1 = some '@' ∧ (square_from_str ((uci.drop 2).take 2)).isSome = true ∧
        (∀ c, uci.get? 0 = some c → (Role.from_char (toAsciiLower c)).isSome = true) ∨
      uci = ['0', '0', '0', '0'])

/-- UTF-8 encoded length of a character, as in Rust's `char::len_utf8`. -/
def utf8Len (c : Char) : Nat :=
  if c.toNat < 0x80 then 1
  else if c.toNat < 0x800 then 2
  else if c.toNat < 0x10000 then 3
  else 4

/-- Byte length of a string, as Rust's `str::len`. -/
def byteLen (s : List Char) : Nat := (s.map utf8Len).sum

/-- The characters spanning the first `n` bytes of a string, `none` when
`n` is not a character boundary (a Rust byte slice there panics). -/
def takeBytes : List Char → Nat → Option (List Char)
  | _, 0 => some []
  | [], _ + 1 => none
  | c :: cs, n + 1 =>
    if utf8Len c ≤ n + 1 then (takeBytes cs (n + 1 - utf8Len c)).map (c :: ·)
    else none

/-- The characters after the first `n` bytes of a string, `none` when `n`
is not a character boundary. -/
def dropBytes : List Char → Nat → Option (List Char)
  | s, 0 => some s
  | [], _ + 1 => none
  | c :: cs, n + 1 =>
    if utf8Len c ≤ n + 1 then dropBytes cs (n + 1 - utf8Len c)
    else none

/-- Byte-faithful model of `Move::from_uci`: Rust measures the length guard
in bytes and takes the byte slices `&uci[0..2]` and `&uci[2..4]`, which
panic (`Except.error ()`) off character boundaries; otherwise the parse
proceeds as in `from_uci`. -/
def from_uci_rust (uci : List Char) : Except Unit (Option Move) :=
  if byteLen uci < 4 ∨ 5 < byteLen uci then .ok none
  else
    match takeBytes uci 2, (dropBytes uci 2).bind (fun r => takeBytes r 2) with
    | some s01, some s23 =>
      .ok
        (match square_from_str s01, square_from_str s23, uci.get? 4 with
        | some s, some t, some promotion =>
          (Role.from_char promotion).map fun role => Move.Normal s t (some role)
        | some s, some t, none => some (Move.Normal s t none)
        | _, _, _ =>
          match uci.get? 0, uci.get? 1, square_from_str s23 with
          | some piece, some at1, some t =>
            if at1 = '@' then (Role.from_char (toAsciiLower piece)).map fun role => Move.Put t role
            else if uci = ['0', '0', '0', '0'] then some Move.Null else none
          | _, _, _ => if uci = ['0', '0', '0', '0'] then some Move.Null else none)
    | _, _ => .error ()

/-- The position contract of `position.rs` consumed by `perft.rs`: legal
move enumeration, the fast unchecked apply, and the re-validating checked
apply (fallible, so `Option`). -/
structure PositionOps (α : Type) where
  legal_moves : α → List Move
  play_unchecked : α → Move → α
  play : α → Move → Option α

/-- From `perft.rs`: `perft` — `1` below depth one, the number of legal
moves at depth one, otherwise the sum over the legal moves of the perft of
the unchecked-apply child one level down. -/
def perft {α : Type} (P : PositionOps α) (pos : α) (depth : Nat) : Nat :=
  if _h : depth < 1 then 1
  else if _h1 : depth = 1 then (P.legal_moves pos).length
  else ((P.legal_moves pos).map fun m => perft P (P.play_unchecked pos m) (depth - 1)).sum
termination_by depth
decreasing_by omega

/-- From `perft.rs`: `debug_perft` — like `perft` but each child is built
with the checked `play`, whose failure (`expect` in the source) aborts the
computation; the printing of each line is I/O and not modelled. -/
def debug_perft {α : Type} (P : PositionOps α) (pos : α) (depth : Nat) : Option Nat :=
  if depth < 1 then some 1
  else
    ((P.legal_moves pos).mapM fun m =>
      (P.play pos m).map fun child => perft P child (depth - 1)).map List.sum

/-- A trivial position: one legal (null) move, applying changes nothing. -/
def trivialOps : PositionOps Unit where
  legal_moves _ := [Move.Null]
  play_unchecked pos _ := pos
  play pos _ := some pos

theorem orList_testBit (l : List Nat) (i : Nat) :
    (orList l).testBit i = l.any fun x => x.testBit i := by
  induction l with
  | nil => simp [orList]
  | cons x t ih =>
    simp only [orList, List.foldr_cons, Nat.testBit_or, List.any_cons]
    rw [← ih]
    rfl

theorem walkRay_edge (occ : Nat) (d : Delta) (fuel : Nat) (sq : Fin 64)
    (h : shiftSq sq d = none) : walkRay occ d fuel sq = 0 := by
  cases fuel with
  | zero => rfl
  | succ n => simp [walkRay, h]

theorem walkRay_congr (occ occ2 : Nat) (d : Delta) :
    ∀ (fuel : Nat) (sq : Fin 64),
      (∀ i, (maskRay d fuel sq).testBit i = true → occ2.testBit i = occ.testBit i) →
      walkRay occ2 d fuel sq = walkRay occ d fuel sq := by
  intro fuel
  induction fuel with
  | zero => intro sq _; rfl
  | succ n ih =>
    intro sq h
    cases h1 : shiftSq sq d with
    | none => simp [walkRay, h1]
    | some sq2 =>
      cases h2 : shiftSq sq2 d with
      | none =>
        have e2 : walkRay occ2 d n sq2 = 0 := walkRay_edge _ _ _ _ h2
        have e : walkRay occ d n sq2 = 0 := walkRay_edge _ _ _ _ h2
        simp [walkRay, h1, e2, e]
      | some sq3 =>
        have hmask : maskRay d (n + 1) sq = (1 <<< (sq2 : Nat)) ||| maskRay d n sq2 := by
          simp [maskRay, h1, h2]
        have hbit : occ2.testBit ↑sq2 = occ.testBit ↑sq2 := by
          apply h
          rw [hmask, Nat.testBit_or, Nat.one_shiftLeft, Nat.testBit_two_pow_self]
          rfl
        have hrest : ∀ i, (maskRay d n sq2).testBit i = true →
            occ2.testBit i = occ.testBit i := by
          intro i hi
          apply h
          rw [hmask, Nat.testBit_or, hi, Bool.or_true]
        simp [walkRay, h1, hbit, ih sq2 hrest]

theorem slidingAttacks_masked (deltas : List Delta) (sq : Fin 64) (occ : Nat) :
    slidingAttacks deltas sq (occ &&& slidingMask deltas sq) = slidingAttacks deltas sq occ := by
  unfold slidingAttacks
  congr 1
  apply List.map_congr_left
  intro d hd
  apply walkRay_congr
  intro i hi
  rw [Nat.testBit_and]
  have hm : (slidingMask deltas sq).testBit i = true := by
    rw [slidingMask, orList_testBit]
    simp only [List.any_eq_true, List.mem_map]
    exact ⟨maskRay d 7 sq, ⟨d, hd, rfl⟩, hi⟩
  rw [hm, Bool.and_true]

/-- C1: for every square and occupancy, the (modelled) magic lookups
`rook_attacks` and `bishop_attacks` coincide with the reference brute-force
ray cast — the union of the piece's rays, each truncated inclusively at the
first occupied square. -/
theorem attacks_eq_raycast (sq : Fin 64) (occupied : Nat) :
    rook_attacks sq occupied = slidingAttacks rookDeltas sq occupied ∧
      bishop_attacks sq occupied = slidingAttacks bishopDeltas sq occupied :=
  ⟨slidingAttacks_masked rookDeltas sq occupied,
    slidingAttacks_masked bishopDeltas sq occupied⟩

theorem index_mem_subsetIndices (bits : Nat) (m : Magic) (occ : Nat) :
    (((m.factor * (occ &&& m.mask)) % 2 ^ 64) >>> (64 - bits)) + m.offset ∈ subsetIndices bits m := by
  rw [subsetIndices, Finset.mem_image]
  refine ⟨occ &&& m.mask, ?_, rfl⟩
  rw [Finset.mem_filter, Finset.mem_range]
  refine ⟨?_, ?_⟩
  · have h := Nat.and_le_right (n := occ) (m := m.mask)
    omega
  · rw [Nat.and_assoc, Nat.and_self]

/-- C2: for every square and occupancy, the index computed by
`rook_attacks` (shift `64 - 12`) and by `bishop_attacks` (shift `64 - 9`)
is strictly below the length of the shared `ATTACKS` table, for any magic
records: the index is one of the indices populated at construction, so the
unchecked read stays in bounds and the debug assertion holds. -/
theorem index_lt_ATTACKS_len (rookMagics bishopMagics : Fin 64 → Magic) (sq : Fin 64)
    (occupied : Nat) :
    rookIndex (rookMagics sq) occupied < ATTACKS_len rookMagics bishopMagics ∧
      bishopIndex (bishopMagics sq) occupied < ATTACKS_len rookMagics bishopMagics := by
  have hsup : ∀ x : Nat, ∀ hx : x ∈ subsetIndices 12 (rookMagics sq) ∪ ∅, True := fun _ _ => trivial
  have hr : rookIndex (rookMagics sq) occupied ≤
      (subsetIndices 12 (rookMagics sq)).sup id :=
    Finset.le_sup (f := id) (index_mem_subsetIndices 12 (rookMagics sq) occupied)
  have hb : bishopIndex (bishopMagics sq) occupied ≤
      (subsetIndices 9 (bishopMagics sq)).sup id :=
    Finset.le_sup (f := id) (index_mem_subsetIndices 9 (bishopMagics sq) occupied)
  have hu : (subsetIndices 12 (rookMagics sq)).sup id ⊔ (subsetIndices 9 (bishopMagics sq)).sup id ≤
      Finset.univ.sup fun t : Fin 64 =>
        (subsetIndices 12 (rookMagics t)).sup id ⊔ (subsetIndices 9 (bishopMagics t)).sup id :=
    Finset.le_sup
      (f := fun t : Fin 64 =>
        (subsetIndices 12 (rookMagics t)).sup id ⊔ (subsetIndices 9 (bishopMagics t)).sup id)
      (Finset.mem_univ sq)
  have h1 : (subsetIndices 12 (rookMagics sq)).sup id ≤
      (subsetIndices 12 (rookMagics sq)).sup id ⊔ (subsetIndices 9 (bishopMagics sq)).sup id :=
    le_sup_left
  have h2 : (subsetIndices 9 (bishopMagics sq)).sup id ≤
      (subsetIndices 12 (rookMagics sq)).sup id ⊔ (subsetIndices 9 (bishopMagics sq)).sup id :=
    le_sup_right
  rw [ATTACKS_len]
  omega

theorem shiftSq_coords (sq sq2 : Fin 64) (d : Delta) (h : shiftSq sq d = some sq2) :
    (fileOf ↑sq2 : Int) = (fileOf ↑sq : Nat) + d.df ∧
      (rankOf ↑sq2 : Int) = (rankOf ↑sq : Nat) + d.dr := by
  rw [shiftSq] at h
  split at h
  case isTrue hc =>
    rw [Option.some.injEq] at h
    subst h
    unfold fileOf rankOf at hc ⊢
    constructor
    · simp only []
      omega
    · simp only []
      omega
  case isFalse => exact absurd h (by simp)

theorem walkRay_mem (occ : Nat) (d : Delta) :
    ∀ (fuel : Nat) (sq : Fin 64) (i : Nat), (walkRay occ d fuel sq).testBit i = true →
      i < 64 ∧ ∃ k : Nat, 1 ≤ k ∧
        (fileOf i : Int) = (fileOf ↑sq : Nat) + k * d.df ∧
        (rankOf i : Int) = (rankOf ↑sq : Nat) + k * d.dr := by
  intro fuel
  induction fuel with
  | zero =>
    intro sq i h
    rw [walkRay] at h
    simp [Nat.zero_testBit] at h
  | succ n ih =>
    intro sq i h
    rw [walkRay] at h
    cases h1 : shiftSq sq d with
    | none =>
      rw [h1] at h
      simp [Nat.zero_testBit] at h
    | some sq2 =>
      rw [h1, Nat.testBit_or] at h
      obtain ⟨hf2, hr2⟩ := shiftSq_coords sq sq2 d h1
      rcases Bool.or_eq_true_iff.mp h with hone | hrest
      · rw [Nat.one_shiftLeft] at hone
        by_cases hieq : (sq2 : Nat) = i
        · subst hieq
          exact ⟨sq2.isLt, 1, le_refl 1, by rw [Nat.cast_one, one_mul]; exact hf2,
            by rw [Nat.cast_one, one_mul]; exact hr2⟩
        · rw [Nat.testBit_two_pow_of_ne hieq] at hone
          exact absurd hone (by simp)
      · by_cases hblk : occ.testBit ↑sq2
        · rw [if_pos hblk] at hrest
          simp [Nat.zero_testBit] at hrest
        · rw [if_neg hblk] at hrest
          obtain ⟨hi64, k, hk, hfk, hrk⟩ := ih sq2 i hrest
          refine ⟨hi64, k + 1, by omega, ?_, ?_⟩
          · have hc : ((k + 1 : Nat) : Int) * d.df = (k : Nat) * d.df + d.df := by
              push_cast
              ring
            rw [hc]
            linarith [hfk, hf2]
          · have hc : ((k + 1 : Nat) : Int) * d.dr = (k : Nat) * d.dr + d.dr := by
              push_cast
              ring
            rw [hc]
            linarith [hrk, hr2]

theorem slidingAttacks_mem (deltas : List Delta) (sq : Fin 64) (occ : Nat) (i : Nat)
    (h : (slidingAttacks deltas sq occ).testBit i = true) :
    ∃ d ∈ deltas, i < 64 ∧ ∃ k : Nat, 1 ≤ k ∧
      (fileOf i : Int) = (fileOf ↑sq : Nat) + k * d.df ∧
      (rankOf i : Int) = (rankOf ↑sq : Nat) + k * d.dr := by
  rw [slidingAttacks, orList_testBit] at h
  simp only [List.any_eq_true, List.mem_map] at h
  obtain ⟨x, ⟨d, hd, rfl⟩, hbit⟩ := h
  exact ⟨d, hd, walkRay_mem occ d 7 sq i hbit⟩

theorem rook_bishop_disjoint (sq : Fin 64) (occupied : Nat) :
    rook_attacks sq occupied &&& bishop_attacks sq occupied = 0 := by
  apply Nat.eq_of_testBit_eq
  intro i
  rw [Nat.testBit_and, Nat.zero_testBit]
  cases hr : (rook_attacks sq occupied).testBit i with
  | false => rfl
  | true =>
    cases hb : (bishop_attacks sq occupied).testBit i with
    | false => rfl
    | true =>
      exfalso
      obtain ⟨d1, hd1, _, k1, hk1, hf1, hr1⟩ :=
        slidingAttacks_mem rookDeltas sq (occupied &&& rook_mask sq) i hr
      obtain ⟨d2, hd2, _, k2, hk2, hf2, hr2⟩ :=
        slidingAttacks_mem bishopDeltas sq (occupied &&& bishop_mask sq) i hb
      simp only [rookDeltas, List.mem_cons, List.not_mem_nil, or_false] at hd1
      simp only [bishopDeltas, List.mem_cons, List.not_mem_nil, or_false] at hd2
      rcases hd1 with rfl | rfl | rfl | rfl <;> rcases hd2 with rfl | rfl | rfl | rfl <;>
        dsimp only at hf1 hr1 hf2 hr2 <;>
        simp only [mul_one, mul_zero, mul_neg_one] at hf1 hr1 hf2 hr2 <;>
        omega

theorem disjoint_xor_eq_or (a b : Nat) (h : a &&& b = 0) : a ^^^ b = a ||| b := by
  apply Nat.eq_of_testBit_eq
  intro i
  have hi : (a &&& b).testBit i = false := by
    rw [h]
    exact Nat.zero_testBit i
  rw [Nat.testBit_and] at hi
  rw [Nat.testBit_xor, Nat.testBit_or]
  cases ha : a.testBit i <;> cases hb : b.testBit i <;> simp_all

/-- C4: queen attacks are the xor of rook and bishop attacks (as in the
source), the two sets are disjoint, and hence the xor equals their
union. -/
theorem queen_attacks_spec (sq : Fin 64) (occupied : Nat) :
    queen_attacks sq occupied = rook_attacks sq occupied ^^^ bishop_attacks sq occupied ∧
      rook_attacks sq occupied &&& bishop_attacks sq occupied = 0 ∧
      queen_attacks sq occupied = rook_attacks sq occupied ||| bishop_attacks sq occupied := by
  refine ⟨rfl, rook_bishop_disjoint sq occupied, ?_⟩
  rw [queen_attacks, disjoint_xor_eq_or _ _ (rook_bishop_disjoint sq occupied)]

/-- C10: every square's rook mask has at most 12 set bits and every
square's bishop mask has at most 9 set bits. -/
theorem mask_popcounts (sq : Fin 64) :
    popcount64 (rook_mask sq) ≤ 12 ∧ popcount64 (bishop_mask sq) ≤ 9 := by
  revert sq
  decide

/-- C3: `perft` returns `1` at depth `0`, the number of legal moves at
depth `1`, and for larger depths the sum over each legal move of the perft
of the unchecked-apply child at one depth less, for any implementation of
the position contract. -/
theorem perft_spec {α : Type} (P : PositionOps α) (pos : α) :
    perft P pos 0 = 1 ∧
      perft P pos 1 = (P.legal_moves pos).length ∧
      ∀ depth : Nat, 1 < depth →
        perft P pos depth =
          ((P.legal_moves pos).map fun m =>
            perft P (P.play_unchecked pos m) (depth - 1)).sum := by
  refine ⟨?_, ?_, ?_⟩
  · rw [perft, dif_pos (by omega)]
  · rw [perft, dif_neg (by omega), dif_pos rfl]
  · intro depth hd
    rw [perft, dif_neg (by omega), dif_neg (by omega)]

/-- Witness: on the one-null-move position, depth 2. -/
theorem perft_spec_witness :
    1 < 2 ∧ perft trivialOps () 2 =
      (([Move.Null] : List Move).map fun m =>
        perft trivialOps (trivialOps.play_unchecked () m) 1).sum :=
  ⟨by omega, (perft_spec trivialOps ()).2.2 2 (by omega)⟩

theorem mapM_eq_some {α β : Type} (f : α → Option β) (g : α → β) :
    ∀ l : List α, (∀ m ∈ l, f m = some (g m)) → l.mapM f = some (l.map g) := by
  intro l
  induction l with
  | nil => intro _; rfl
  | cons x t ih =>
    intro h
    rw [List.mapM_cons, h x (by simp), ih fun m hm => h m (by simp [hm])]
    rfl

theorem sum_map_eq_length {α : Type} (f : α → Nat) :
    ∀ l : List α, (∀ m ∈ l, f m = 1) → (l.map f).sum = l.length := by
  intro l
  induction l with
  | nil => intro _; rfl
  | cons x t ih =>
    intro h
    simp [h x (by simp), ih fun m hm => h m (by simp [hm])]
    omega

/-- C9: whenever the checked apply succeeds with the same child as the
unchecked apply on every generated legal move, `debug_perft` computes the
same count as `perft` (its printing is I/O and does not enter the
count). -/
theorem debug_perft_eq_perft {α : Type} (P : PositionOps α)
    (agree : ∀ (pos : α) (m : Move), m ∈ P.legal_moves pos →
      P.play pos m = some (P.play_unchecked pos m)) (pos : α) (depth : Nat) :
    debug_perft P pos depth = some (perft P pos depth) := by
  rw [debug_perft]
  by_cases h0 : depth < 1
  · rw [if_pos h0, perft, dif_pos h0]
  · rw [if_neg h0]
    have hm : ((P.legal_moves pos).mapM fun m =>
          (P.play pos m).map fun child => perft P child (depth - 1)) =
        some ((P.legal_moves pos).map fun m =>
          perft P (P.play_unchecked pos m) (depth - 1)) := by
      apply mapM_eq_some
      intro m hmem
      rw [agree pos m hmem]
      rfl
    rw [hm, Option.map_some']
    congr 1
    by_cases h1 : depth = 1
    · subst h1
      rw [perft, dif_neg (by omega), dif_pos rfl]
      apply sum_map_eq_length
      intro m _
      rw [perft, dif_pos (by omega)]
    · rw [perft, dif_neg h0, dif_neg h1]

/-- Witness: on the one-null-move position, whose checked apply always
succeeds and agrees with the unchecked apply, at depth 2. -/
theorem debug_perft_eq_perft_witness :
    debug_perft trivialOps () 2 = some (perft trivialOps () 2) :=
  debug_perft_eq_perft trivialOps (fun _ _ _ => rfl) () 2

theorem lineBB_testBit_aux (p : Nat → Bool) (i : Nat) :
    ∀ l : List Nat,
      (l.foldr (fun s acc => if p s then (1 <<< s) ||| acc else acc) 0).testBit i = true ↔
        i ∈ l ∧ p i = true := by
  intro l
  induction l with
  | nil => simp [Nat.zero_testBit]
  | cons x t ih =>
    simp only [List.foldr_cons]
    by_cases hx : p x
    · rw [if_pos hx, Nat.testBit_or, Nat.one_shiftLeft]
      constructor
      · intro h
        rcases Bool.or_eq_true_iff.mp h with h1 | h1
        · by_cases hxi : x = i
          · subst hxi
            exact ⟨by simp, hx⟩
          · rw [Nat.testBit_two_pow_of_ne hxi] at h1
            exact absurd h1 (by simp)
        · obtain ⟨hm, hp⟩ := ih.mp h1
          exact ⟨by simp [hm], hp⟩
      · rintro ⟨hm, hp⟩
        rcases List.mem_cons.mp hm with rfl | hm
        · rw [Nat.testBit_two_pow_self]
          rfl
        · rw [ih.mpr ⟨hm, hp⟩]
          simp
    · rw [if_neg hx, ih]
      constructor
      · rintro ⟨hm, hp⟩
        exact ⟨by simp [hm], hp⟩
      · rintro ⟨hm, hp⟩
        rcases List.mem_cons.mp hm with rfl | hm
        · exact absurd hp hx
        · exact ⟨hm, hp⟩

theorem lineBB_testBit (p : Nat → Bool) (i : Nat) :
    (lineBB p).testBit i = true ↔ i < 64 ∧ p i = true := by
  rw [lineBB, lineBB_testBit_aux]
  simp [List.mem_range]

theorem ray_testBit (a b : Fin 64) (i : Nat) :
    (ray a b).testBit i = true ↔ (a : Nat) ≠ ↑b ∧ i < 64 ∧ onLineWithP ↑a ↑b i := by
  have ha := a.isLt
  have hb := b.isLt
  rw [ray, BB_RAYS]
  by_cases hab : (a : Nat) = ↑b
  · rw [if_pos hab]
    simp [Nat.zero_testBit, hab]
  · rw [if_neg hab]
    by_cases h1 : sameRank ↑a ↑b
    · rw [if_pos h1, lineBB_testBit]
      simp only [sameRank, sameFile, sameDiag, sameAnti, beq_iff_eq] at h1 ⊢
      unfold onLineWithP fileOf rankOf at *
      omega
    · rw [if_neg h1]
      by_cases h2 : sameFile ↑a ↑b
      · rw [if_pos h2, lineBB_testBit]
        simp only [sameRank, sameFile, sameDiag, sameAnti, beq_iff_eq] at h1 h2 ⊢
        unfold onLineWithP fileOf rankOf at *
        omega
      · rw [if_neg h2]
        by_cases h3 : sameDiag ↑a ↑b
        · rw [if_pos h3, lineBB_testBit]
          simp only [sameRank, sameFile, sameDiag, sameAnti, beq_iff_eq] at h1 h2 h3 ⊢
          unfold onLineWithP fileOf rankOf at *
          omega
        · rw [if_neg h3]
          by_cases h4 : sameAnti ↑a ↑b
          · rw [if_pos h4, lineBB_testBit]
            simp only [sameRank, sameFile, sameDiag, sameAnti, beq_iff_eq] at h1 h2 h3 h4 ⊢
            unfold onLineWithP fileOf rankOf at *
            omega
          · rw [if_neg h4]
            simp only [sameRank, sameFile, sameDiag, sameAnti, beq_iff_eq] at h1 h2 h3 h4
            simp only [Nat.zero_testBit]
            constructor
            · intro h
              exact absurd h (by simp)
            · rintro ⟨hne, hi64, hline⟩
              exfalso
              unfold onLineWithP fileOf rankOf at *
              omega

theorem rayRef_testBit (a b : Fin 64) (i : Nat) :
    (rayRef a b).testBit i = true ↔ (a : Nat) ≠ ↑b ∧ i < 64 ∧ onLineWithP ↑a ↑b i := by
  have ha := a.isLt
  have hb := b.isLt
  rw [rayRef]
  by_cases hab : (a : Nat) = ↑b
  · rw [if_pos hab]
    simp [Nat.zero_testBit, hab]
  · rw [if_neg hab]
    by_cases hline : onSameLine ↑a ↑b
    · rw [if_pos hline, lineBB_testBit]
      simp only [onSameLine, onLine, sameRank, sameFile, sameDiag, sameAnti, beq_iff_eq,
        Bool.or_eq_true, Bool.and_eq_true] at hline ⊢
      unfold onLineWithP fileOf rankOf at *
      omega
    · rw [if_neg hline]
      simp only [onSameLine, sameRank, sameFile, sameDiag, sameAnti, beq_iff_eq,
        Bool.or_eq_true] at hline
      simp only [Nat.zero_testBit]
      constructor
      · intro h
        exact absurd h (by simp)
      · rintro ⟨hne, hi64, hl⟩
        exfalso
        unfold onLineWithP fileOf rankOf at *
        omega

theorem sq_eq_of_coords {x y : Fin 64} (hf : fileOf ↑x = fileOf ↑y) (hr : rankOf ↑x = rankOf ↑y) :
    x = y := by
  have hx := x.isLt
  have hy := y.isLt
  apply Fin.ext
  unfold fileOf rankOf at *
  omega

theorem shiftSq_some (sq : Fin 64) (d : Delta)
    (h1 : 0 ≤ (fileOf ↑sq : Int) + d.df) (h2 : (fileOf ↑sq : Int) + d.df < 8)
    (h3 : 0 ≤ (rankOf ↑sq : Int) + d.dr) (h4 : (rankOf ↑sq : Int) + d.dr < 8) :
    ∃ sq2 : Fin 64, shiftSq sq d = some sq2 ∧
      (fileOf ↑sq2 : Int) = (fileOf ↑sq : Nat) + d.df ∧
      (rankOf ↑sq2 : Int) = (rankOf ↑sq : Nat) + d.dr := by
  rw [shiftSq, dif_pos ⟨h1, h2, h3, h4⟩]
  refine ⟨_, rfl, ?_, ?_⟩ <;>
    · unfold fileOf rankOf at *
      simp only []
      omega

theorem betweenGo_mem_bounded (df dr : Int) (b : Fin 64) :
    ∀ (fuel : Nat) (sq : Fin 64) (t : Nat), 1 ≤ t →
      ((fileOf ↑b : Int) = (fileOf ↑sq : Nat) + t * df) →
      ((rankOf ↑b : Int) = (rankOf ↑sq : Nat) + t * dr) →
      ∀ i : Nat, (betweenGo ⟨df, dr⟩ b fuel sq).testBit i = true →
        i < 64 ∧ ∃ k : Nat, 1 ≤ k ∧ k < t ∧
          (fileOf i : Int) = (fileOf ↑sq : Nat) + k * df ∧
          (rankOf i : Int) = (rankOf ↑sq : Nat) + k * dr := by
  intro fuel
  induction fuel with
  | zero =>
    intro sq t ht hfb hrb i h
    rw [betweenGo] at h
    simp [Nat.zero_testBit] at h
  | succ n ih =>
    intro sq t ht hfb hrb i h
    rw [betweenGo] at h
    split at h
    · simp [Nat.zero_testBit] at h
    · rename_i sq2 hs
      obtain ⟨hf2, hr2⟩ := shiftSq_coords _ _ _ hs
      dsimp only at hf2 hr2
      split at h
      · simp [Nat.zero_testBit] at h
      · rename_i hne
        have ht2 : 2 ≤ t := by
          by_contra hlt
          have ht1 : t = 1 := by omega
          subst ht1
          apply hne
          apply sq_eq_of_coords <;> omega
        rw [Nat.testBit_or] at h
        rcases Bool.or_eq_true_iff.mp h with h1 | h1
        · rw [Nat.one_shiftLeft] at h1
          by_cases hisq : (sq2 : Nat) = i
          · subst hisq
            exact ⟨sq2.isLt, 1, le_refl 1, by omega, by omega, by omega⟩
          · rw [Nat.testBit_two_pow_of_ne hisq] at h1
            exact absurd h1 (by simp)
        · have hfb2 : (fileOf ↑b : Int) = (fileOf ↑sq2 : Nat) + (t - 1 : Nat) * df := by
            have hc : ((t - 1 : Nat) : Int) = (t : Nat) - 1 := by omega
            have hx : ((t - 1 : Nat) : Int) * df = (t : Nat) * df - df := by
              rw [hc]
              ring
            rw [hx]
            linarith [hfb, hf2]
          have hrb2 : (rankOf ↑b : Int) = (rankOf ↑sq2 : Nat) + (t - 1 : Nat) * dr := by
            have hc : ((t - 1 : Nat) : Int) = (t : Nat) - 1 := by omega
            have hx : ((t - 1 : Nat) : Int) * dr = (t : Nat) * dr - dr := by
              rw [hc]
              ring
            rw [hx]
            linarith [hrb, hr2]
          obtain ⟨hi64, k, hk1, hkt, hfk, hrk⟩ := ih sq2 (t - 1) (by omega) hfb2 hrb2 i h1
          refine ⟨hi64, k + 1, by omega, by omega, ?_, ?_⟩
          · have hc : ((k + 1 : Nat) : Int) * df = (k : Nat) * df + df := by
              push_cast
              ring
            rw [hc]
            linarith [hfk, hf2]
          · have hc : ((k + 1 : Nat) : Int) * dr = (k : Nat) * dr + dr := by
              push_cast
              ring
            rw [hc]
            linarith [hrk, hr2]

theorem betweenGo_complete (df dr : Int)
    (hdf : df = 1 ∨ df = 0 ∨ df = -1) (hdr : dr = 1 ∨ dr = 0 ∨ dr = -1)
    (hd0 : ¬(df = 0 ∧ dr = 0)) (b : Fin 64) :
    ∀ (fuel : Nat) (sq : Fin 64) (t : Nat), 1 ≤ t → t ≤ fuel →
      ((fileOf ↑b : Int) = (fileOf ↑sq : Nat) + t * df) →
      ((rankOf ↑b : Int) = (rankOf ↑sq : Nat) + t * dr) →
      ∀ (k i : Nat), 1 ≤ k → k < t → i < 64 →
        ((fileOf i : Int) = (fileOf ↑sq : Nat) + k * df) →
        ((rankOf i : Int) = (rankOf ↑sq : Nat) + k * dr) →
        (betweenGo ⟨df, dr⟩ b fuel sq).testBit i = true := by
  rcases hdf with rfl | rfl | rfl <;> rcases hdr with rfl | rfl | rfl <;>
    first
      | (exfalso
         omega)
      | (intro fuel
         induction fuel with
         | zero =>
           intro sq t ht hle hfb hrb k i hk hkt hi64 hfi hri
           omega
         | succ n ih =>
           intro sq t ht hle hfb hrb k i hk hkt hi64 hfi hri
           have hb64 := b.isLt
           have hsq64 := sq.isLt
           rw [betweenGo]
           split
           · rename_i hs
             rw [shiftSq] at hs
             split at hs
             · simp at hs
             · rename_i hcond
               exfalso
               dsimp only at hcond
               apply hcond
               unfold fileOf rankOf at *
               refine ⟨by omega, by omega, by omega, by omega⟩
           · rename_i sq2 hs
             obtain ⟨hf2, hr2⟩ := shiftSq_coords _ _ _ hs
             dsimp only at hf2 hr2
             have hsq2 := sq2.isLt
             have hne : ¬ sq2 = b := by
               intro he
               subst he
               omega
             rw [if_neg hne, Nat.testBit_or]
             by_cases hk1 : k = 1
             · subst hk1
               have hieq : (sq2 : Nat) = i := by
                 unfold fileOf rankOf at *
                 omega
               subst hieq
               rw [Nat.one_shiftLeft, Nat.testBit_two_pow_self, Bool.true_or]
             · have hrec := ih sq2 (t - 1) (by omega) (by omega) (by omega) (by omega) (k - 1) i
                 (by omega) (by omega) hi64 (by omega) (by omega)
               rw [hrec, Bool.or_true])

theorem stepDelta_df_cases (a b : Fin 64) :
    ((stepDelta a b).df = 1 ∨ (stepDelta a b).df = 0 ∨ (stepDelta a b).df = -1) ∧
      ((stepDelta a b).dr = 1 ∨ (stepDelta a b).dr = 0 ∨ (stepDelta a b).dr = -1) := by
  unfold stepDelta sgnInt
  dsimp only
  constructor <;> split_ifs <;> simp

theorem stepDelta_ne_zero (a b : Fin 64) (hab : (a : Nat) ≠ ↑b) :
    ¬((stepDelta a b).df = 0 ∧ (stepDelta a b).dr = 0) := by
  have ha := a.isLt
  have hb := b.isLt
  unfold stepDelta sgnInt
  dsimp only
  split_ifs <;> (try simp) <;>
  · unfold fileOf rankOf at *
    omega

theorem stepDelta_reach (a b : Fin 64) (hab : (a : Nat) ≠ ↑b)
    (hline : onSameLine ↑a ↑b = true) :
    ∃ t : Nat, 1 ≤ t ∧ t ≤ 7 ∧
      ((fileOf ↑b : Int) = (fileOf ↑a : Nat) + t * (stepDelta a b).df) ∧
      ((rankOf ↑b : Int) = (rankOf ↑a : Nat) + t * (stepDelta a b).dr) := by
  have ha := a.isLt
  have hb := b.isLt
  simp only [onSameLine, sameRank, sameFile, sameDiag, sameAnti, beq_iff_eq,
    Bool.or_eq_true] at hline
  unfold stepDelta sgnInt
  dsimp only
  rcases hline with ((h | h) | h) | h
  · refine ⟨((fileOf ↑b : Int) - (fileOf ↑a : Nat)).natAbs, ?_, ?_, ?_, ?_⟩ <;> (try split_ifs) <;>
    · unfold fileOf rankOf at *
      omega
  · refine ⟨((rankOf ↑b : Int) - (rankOf ↑a : Nat)).natAbs, ?_, ?_, ?_, ?_⟩ <;> (try split_ifs) <;>
    · unfold fileOf rankOf at *
      omega
  · refine ⟨((fileOf ↑b : Int) - (fileOf ↑a : Nat)).natAbs, ?_, ?_, ?_, ?_⟩ <;> (try split_ifs) <;>
    · unfold fileOf rankOf at *
      omega
  · refine ⟨((fileOf ↑b : Int) - (fileOf ↑a : Nat)).natAbs, ?_, ?_, ?_, ?_⟩ <;> (try split_ifs) <;>
    · unfold fileOf rankOf at *
      omega

set_option maxHeartbeats 3200000 in
theorem between_testBit (a b : Fin 64) (i : Nat) :
    (between a b).testBit i = true ↔
      (a : Nat) ≠ ↑b ∧ i < 64 ∧ strictlyBetweenP ↑a ↑b i := by
  have ha := a.isLt
  have hb := b.isLt
  rw [between, BB_BETWEEN]
  by_cases hg : (a : Nat) ≠ (b : Nat) ∧ onSameLine ↑a ↑b
  · rw [if_pos hg]
    obtain ⟨hab, hline⟩ := hg
    obtain ⟨hdf3, hdr3⟩ := stepDelta_df_cases a b
    have hd0 := stepDelta_ne_zero a b hab
    obtain ⟨t, ht1, ht7, hfb, hrb⟩ := stepDelta_reach a b hab hline
    constructor
    · intro h
      obtain ⟨hi64, k, hk1, hkt, hfk, hrk⟩ :=
        betweenGo_mem_bounded (stepDelta a b).df (stepDelta a b).dr b 7 a t ht1 hfb hrb i h
      refine ⟨hab, hi64, ?_⟩
      unfold strictlyBetweenP onLineWithP
      unfold stepDelta sgnInt at hfk hrk hfb hrb
      dsimp only at hfk hrk hfb hrb
      split_ifs at hfk hrk hfb hrb <;>
      · unfold fileOf rankOf at *
        omega
    · rintro ⟨-, hi64, hsb⟩
      unfold strictlyBetweenP onLineWithP at hsb
      have hlineP := hline
      simp only [onSameLine, sameRank, sameFile, sameDiag, sameAnti, beq_iff_eq,
        Bool.or_eq_true] at hlineP
      have happ := betweenGo_complete (stepDelta a b).df (stepDelta a b).dr hdf3 hdr3 hd0
        b 7 a t ht1 ht7 hfb hrb
      rcases hlineP with ((h | h) | h) | h
      · refine happ (((fileOf i : Int) - (fileOf ↑a : Nat)).natAbs) i ?_ ?_ hi64 ?_ ?_ <;>
        · unfold stepDelta sgnInt at hfb hrb
          dsimp only at hfb hrb
          try unfold stepDelta sgnInt
          try dsimp only
          split_ifs at hfb hrb ⊢ <;>
          · unfold fileOf rankOf at *
            omega
      · refine happ (((rankOf i : Int) - (rankOf ↑a : Nat)).natAbs) i ?_ ?_ hi64 ?_ ?_ <;>
        · unfold stepDelta sgnInt at hfb hrb
          dsimp only at hfb hrb
          try unfold stepDelta sgnInt
          try dsimp only
          split_ifs at hfb hrb ⊢ <;>
          · unfold fileOf rankOf at *
            omega
      · refine happ (((fileOf i : Int) - (fileOf ↑a : Nat)).natAbs) i ?_ ?_ hi64 ?_ ?_ <;>
        · unfold stepDelta sgnInt at hfb hrb
          dsimp only at hfb hrb
          try unfold stepDelta sgnInt
          try dsimp only
          split_ifs at hfb hrb ⊢ <;>
          · unfold fileOf rankOf at *
            omega
      · refine happ (((fileOf i : Int) - (fileOf ↑a : Nat)).natAbs) i ?_ ?_ hi64 ?_ ?_ <;>
        · unfold stepDelta sgnInt at hfb hrb
          dsimp only at hfb hrb
          try unfold stepDelta sgnInt
          try dsimp only
          split_ifs at hfb hrb ⊢ <;>
          · unfold fileOf rankOf at *
            omega
  · rw [if_neg hg]
    simp only [Nat.zero_testBit]
    constructor
    · intro h
      exact absurd h (by simp)
    · rintro ⟨hab, hi64, hsb⟩
      exfalso
      apply hg
      refine ⟨hab, ?_⟩
      unfold strictlyBetweenP onLineWithP at hsb
      show onSameLine ↑a ↑b = true
      simp only [onSameLine, sameRank, sameFile, sameDiag, sameAnti, beq_iff_eq,
        Bool.or_eq_true]
      unfold fileOf rankOf at *
      omega

theorem testBit_ext_of_iff {x y : Nat}
    (h : ∀ i, x.testBit i = true ↔ y.testBit i = true) : x = y := by
  apply Nat.eq_of_testBit_eq
  intro i
  cases hx : x.testBit i with
  | true => exact ((h i).mp hx).symm
  | false =>
    cases hy : y.testBit i with
    | true => exact absurd ((h i).mpr hy) (by simp [hx])
    | false => rfl

/-- C5: the ray of a pair is empty when the squares coincide or are
unaligned and otherwise the full line containing both (the reference
`rayRef`); `between` is contained in the ray, contains neither endpoint,
and is empty for unaligned or adjacent pairs; `aligned` is exactly ray
membership. -/
theorem ray_between_aligned_spec (a b c : Fin 64) :
    ray a b = rayRef a b ∧
      between a b &&& ray a b = between a b ∧
      contains (between a b) a = false ∧
      contains (between a b) b = false ∧
      ((onSameLine ↑a ↑b = false ∨ isAdjacent a b = true) → between a b = 0) ∧
      aligned a b c = contains (ray a b) c := by
  refine ⟨?_, ?_, ?_, ?_, ?_, rfl⟩
  · apply testBit_ext_of_iff
    intro i
    rw [ray_testBit, rayRef_testBit]
  · apply Nat.eq_of_testBit_eq
    intro i
    rw [Nat.testBit_and]
    cases hbet : (between a b).testBit i with
    | false => rfl
    | true =>
      obtain ⟨hab, hi64, hsb⟩ := (between_testBit a b i).mp hbet
      have hray : (ray a b).testBit i = true := by
        rw [ray_testBit]
        exact ⟨hab, hi64, hsb.1⟩
      rw [hray]
      rfl
  · show (between a b).testBit ↑a = false
    cases h : (between a b).testBit ↑a with
    | false => rfl
    | true =>
      obtain ⟨hab, hi64, hsb⟩ := (between_testBit a b ↑a).mp h
      exact absurd rfl hsb.2.1
  · show (between a b).testBit ↑b = false
    cases h : (between a b).testBit ↑b with
    | false => rfl
    | true =>
      obtain ⟨hab, hi64, hsb⟩ := (between_testBit a b ↑b).mp h
      exact absurd rfl hsb.2.2.1
  · intro hcase
    rcases hcase with hun | hadj
    · rw [between, BB_BETWEEN, if_neg]
      rintro ⟨-, hline⟩
      rw [hun] at hline
      exact absurd hline (by simp)
    · apply Nat.eq_of_testBit_eq
      intro i
      rw [Nat.zero_testBit]
      cases h : (between a b).testBit i with
      | false => rfl
      | true =>
        exfalso
        obtain ⟨hab, hi64, hsb⟩ := (between_testBit a b i).mp h
        unfold isAdjacent at hadj
        simp only [Bool.and_eq_true, bne_iff_ne, decide_eq_true_eq] at hadj
        unfold strictlyBetweenP onLineWithP at hsb
        unfold fileOf rankOf at *
        omega

/-- Witness: adjacent same-rank squares have an empty between set. -/
theorem ray_between_aligned_spec_witness : between 0 1 = 0 :=
  (ray_between_aligned_spec 0 1 0).2.2.2.2.1 (Or.inr (by decide))

set_option maxHeartbeats 1600000 in
/-- C6: `ray` and `between` are symmetric in their two square arguments. -/
theorem ray_between_symm (a b : Fin 64) :
    ray a b = ray b a ∧ between a b = between b a := by
  constructor
  · apply testBit_ext_of_iff
    intro i
    rw [ray_testBit, ray_testBit]
    constructor
    · rintro ⟨hab, hi64, hl⟩
      refine ⟨fun he => hab he.symm, hi64, ?_⟩
      unfold onLineWithP at *
      omega
    · rintro ⟨hab, hi64, hl⟩
      refine ⟨fun he => hab he.symm, hi64, ?_⟩
      unfold onLineWithP at *
      omega
  · apply testBit_ext_of_iff
    intro i
    rw [between_testBit, between_testBit]
    constructor
    · rintro ⟨hab, hi64, hsb⟩
      refine ⟨fun he => hab he.symm, hi64, ?_⟩
      unfold strictlyBetweenP onLineWithP at *
      omega
    · rintro ⟨hab, hi64, hsb⟩
      refine ⟨fun he => hab he.symm, hi64, ?_⟩
      unfold strictlyBetweenP onLineWithP at *
      omega

theorem sq_roundtrip (s : Fin 64) : square_from_str (squareChars s) = some s := by
  revert s
  decide

theorem put_first_none (r : Role) : square_from_str [toAsciiUpper r.char, '@'] = none := by
  revert r
  decide

theorem role_lower_upper (r : Role) :
    Role.from_char (toAsciiLower (toAsciiUpper r.char)) = some r := by
  revert r
  decide

theorem role_from_char_char (r : Role) : Role.from_char r.char = some r := by
  revert r
  decide

/-- C7: for every constructible move (normal with or without promotion,
put, or null), parsing the move's display string returns exactly that
move. -/
theorem from_uci_roundtrip (m : Move) : from_uci (moveChars m) = some m := by
  cases m with
  | Normal s t promo =>
    have hs := sq_roundtrip s
    have ht := sq_roundtrip t
    simp only [squareChars] at hs ht
    cases promo with
    | none =>
      show from_uci (squareChars s ++ squareChars t) = _
      simp [from_uci, squareChars, hs, ht]
    | some p =>
      show from_uci (squareChars s ++ squareChars t ++ [p.char]) = _
      simp [from_uci, squareChars, hs, ht, role_from_char_char]
  | Put t r =>
    have ht := sq_roundtrip t
    have hput := put_first_none r
    simp only [squareChars] at ht
    show from_uci ([toAsciiUpper r.char, '@'] ++ squareChars t) = _
    simp [from_uci, squareChars, ht, hput, role_lower_upper]
  | Null => decide

theorem byteLen_ascii (s : List Char) (h : ∀ c ∈ s, c.toNat < 128) : byteLen s = s.length := by
  induction s with
  | nil => rfl
  | cons c cs ih =>
    have hc1 : utf8Len c = 1 := by
      unfold utf8Len
      rw [if_pos (h c (by simp))]
    unfold byteLen at *
    simp only [List.map_cons, List.sum_cons, List.length_cons, hc1,
      ih fun x hx => h x (by simp [hx])]
    omega

theorem takeBytes_ascii (s : List Char) (h : ∀ c ∈ s, c.toNat < 128) :
    ∀ n : Nat, n ≤ s.length → takeBytes s n = some (s.take n) := by
  induction s with
  | nil =>
    intro n hn
    have : n = 0 := by simpa using hn
    subst this
    rfl
  | cons c cs ih =>
    intro n hn
    cases n with
    | zero => rfl
    | succ m =>
      have hc1 : utf8Len c = 1 := by
        unfold utf8Len
        rw [if_pos (h c (by simp))]
      rw [takeBytes, if_pos (by omega), hc1]
      have hm : m + 1 - 1 = m := by omega
      rw [hm, ih (fun x hx => h x (by simp [hx])) m (by simpa using hn)]
      rfl

theorem dropBytes_ascii (s : List Char) (h : ∀ c ∈ s, c.toNat < 128) :
    ∀ n : Nat, n ≤ s.length → dropBytes s n = some (s.drop n) := by
  induction s with
  | nil =>
    intro n hn
    have : n = 0 := by simpa using hn
    subst this
    rfl
  | cons c cs ih =>
    intro n hn
    cases n with
    | zero => rfl
    | succ m =>
      have hc1 : utf8Len c = 1 := by
        unfold utf8Len
        rw [if_pos (h c (by simp))]
      rw [dropBytes, if_pos (by omega), hc1]
      have hm : m + 1 - 1 = m := by omega
      rw [hm, ih (fun x hx => h x (by simp [hx])) m (by simpa using hn)]
      rfl

theorem from_uci_rust_ascii (uci : List Char) (h : ∀ c ∈ uci, c.toNat < 128) :
    from_uci_rust uci = Except.ok (from_uci uci) := by
  rw [from_uci_rust, from_uci, byteLen_ascii uci h]
  by_cases hlen : uci.length < 4 ∨ 5 < uci.length
  · rw [if_pos hlen, if_pos hlen]
  · rw [if_neg hlen, if_neg hlen]
    rw [takeBytes_ascii uci h 2 (by omega),
      dropBytes_ascii uci h 2 (by omega)]
    have hd : ∀ c ∈ uci.drop 2, c.toNat < 128 := fun c hc => h c (List.mem_of_mem_drop hc)
    simp only [Option.some_bind]
    rw [takeBytes_ascii (uci.drop 2) hd 2 (by simp; omega)]

theorem from_uci_none_of_not_wellFormed (uci : List Char) (hwf : ¬ wellFormedUci uci) :
    from_uci uci = none := by
  by_contra hne
  apply hwf
  rw [from_uci] at hne
  split at hne
  · exact absurd rfl hne
  · rename_i hlen
    split at hne
    · rename_i s t promo hsq1 hsq2 hget
      cases hr : Role.from_char promo with
      | none =>
        rw [hr] at hne
        exact absurd rfl hne
      | some r =>
        refine ⟨by omega, Or.inl ⟨?_, ?_, ?_⟩⟩
        · rw [hsq1]
          rfl
        · rw [hsq2]
          rfl
        · intro p hp
          rw [hget] at hp
          injection hp with hp
          subst hp
          rw [hr]
          rfl
    · rename_i s t hsq1 hsq2 hget
      refine ⟨by omega, Or.inl ⟨?_, ?_, ?_⟩⟩
      · rw [hsq1]
        rfl
      · rw [hsq2]
        rfl
      · intro p hp
        rw [hget] at hp
        exact absurd hp (by simp)
    · split at hne
      · rename_i piece at1 tok hget0 hget1 hsq
        split at hne
        · rename_i hat
          subst hat
          cases hr : Role.from_char (toAsciiLower piece) with
          | none =>
            rw [hr] at hne
            exact absurd rfl hne
          | some r =>
            refine ⟨by omega, Or.inr (Or.inl ⟨?_, ?_, ?_⟩)⟩
            · exact hget1
            · rw [hsq]
              rfl
            · intro c hc
              rw [hget0] at hc
              injection hc with hc
              subst hc
              rw [hr]
              rfl
        · split at hne
          · rename_i h0
            exact ⟨by omega, Or.inr (Or.inr h0)⟩
          · exact absurd rfl hne
      · split at hne
        · rename_i h0
          exact ⟨by omega, Or.inr (Or.inr h0)⟩
        · exact absurd rfl hne

/-- Counterexample: on the malformed non-ASCII token "a€4" (five bytes, so
it passes the length guard, but the byte slice at index 2 falls inside the
euro sign) the source panics instead of returning an absent result. -/
theorem from_uci_panics_non_ascii :
    from_uci_rust ['a', '€', '4'] = Except.error () ∧
      from_uci_rust ['a', '€', '4'] ≠ Except.ok none ∧
      ¬ wellFormedUci ['a', '€', '4'] :=
  ⟨rfl, fun h => Except.noConfusion h, fun h => by rcases h with ⟨hl, -⟩; simp at hl⟩

/-- C8 (amended): every ASCII token that is not a well-formed move token
(wrong length, unparseable square, unknown promotion or role letter)
parses to an absent result, never a partially constructed move; the four
sample malformed tokens are rejected.  Malformed non-ASCII tokens can
instead panic on byte-boundary slicing (see the counterexample). -/
theorem from_uci_malformed_rust (uci : List Char) :
    ((∀ c ∈ uci, c.toNat < 128) → ¬ wellFormedUci uci → from_uci_rust uci = Except.ok none) ∧
      from_uci_rust [] = Except.ok none ∧
      from_uci_rust ['e', '2'] = Except.ok none ∧
      from_uci_rust ['e', '2', 'e', '9'] = Except.ok none ∧
      from_uci_rust ['z', 'z', '@', 'e', '4'] = Except.ok none := by
  refine ⟨?_, rfl, rfl, rfl, rfl⟩
  intro hascii hwf
  rw [from_uci_rust_ascii uci hascii, from_uci_none_of_not_wellFormed uci hwf]

/-- Witness: the two-character ASCII token is not well-formed and parses
to nothing. -/
theorem from_uci_malformed_rust_witness :
    from_uci_rust ['e', '2'] = Except.ok none :=
  (from_uci_malformed_rust ['e', '2']).1 (by decide)
    fun h => by rcases h with ⟨hl, -⟩; simp at hl

end Shakmaty
